import Mathlib

/-!
Shallow embedding of the kiss-headers core (tokenizer, attribute index,
header construction) translated from `src/kiss_headers/utils.py` and
`src/kiss_headers/models.py`, together with theorems settling the
specification claims about them.

Python strings are modelled as Lean `String`; character-level work is done
on `String.data` (a `List Char`) so that every definition reduces by kernel
computation.  Machine-level concerns (interning, aliasing) are outside the
model: values are pure.
-/

set_option maxRecDepth 8000

/-- `utils.normalize_str`: lowercase the string and replace `-` with `_`.
Python lowercases full Unicode; this model lowercases ASCII letters, which
agrees on every header-legal name and on all inputs used in this file. -/
def normalize_str (s : String) : String :=
  ⟨s.data.map (fun c => if c = '-' then '_' else c.toLower)⟩

/-- The whitespace set stripped by Python's `str.strip()` (ASCII part). -/
def isPySpace (c : Char) : Bool :=
  c = ' ' || c = '\t' || c = '\n' || c = '\r' || c = '\x0b' || c = '\x0c'

/-- Python `str.strip()` with no argument (strip whitespace on both ends),
as used by `header_content_split` (`lstrip().rstrip()`). -/
def pyStrip (s : String) : String :=
  ⟨((s.data.dropWhile isPySpace).reverse.dropWhile isPySpace).reverse⟩

/-- The three-letter weekday abbreviations recognised by the tokenizer
(`utils.header_content_split`, RFC 7231 date exception). -/
def weekdays : List (List Char) :=
  ["Mon".data, "Tue".data, "Wed".data, "Thu".data, "Fri".data, "Sat".data, "Sun".data]

/-- `index >= 3 and string[index - 3 : index] in {"Mon", ...}`: whether the
three characters right before position `i` spell a weekday abbreviation. -/
def dayAt (cs : List Char) (i : Nat) : Bool :=
  decide (3 ≤ i) && weekdays.contains ((cs.drop (i - 3)).take 3)

/-- Scanner state of `header_content_split`: the four context flags, the
tokens already emitted (Python's `result[:-1]`, stripped at emission time)
and the token being accumulated (Python's `result[-1]`). -/
structure ScanState where
  inDq : Bool
  inPar : Bool
  inValue : Bool
  isDay : Bool
  tokens : List String
  current : String
deriving Repr, DecidableEq

/-- Initial scanner state (`result = [""]`, all flags false). -/
def initScan : ScanState := ⟨false, false, false, false, [], ""⟩

/-- One iteration of the `for letter, index in zip(string, range(...))` loop
of `utils.header_content_split`.  `dayHere` is the weekday test for the
current index (only consulted in the branch Python updates `is_on_a_day` in). -/
def splitStep (delim : Char) (dayHere : Bool) (c : Char) (st : ScanState) : ScanState :=
  -- quote toggling / parenthesis toggling / weekday refresh
  let st :=
    if c = '"' then
      let dq := !st.inDq
      { st with inDq := dq, inValue := if st.inValue && !dq then false else st.inValue }
    else if c = '(' && !st.inPar then { st with inPar := true }
    else if c = ')' && st.inPar then { st with inPar := false }
    else { st with isDay := dayHere }
  -- value tracking, only outside double quotes
  let st :=
    if !st.inDq then
      let st :=
        if !st.inValue && c = '=' then { st with inValue := true }
        else if c = ';' && st.inValue then { st with inValue := false }
        else st
      if st.inValue && c = delim && !st.isDay then { st with inValue := false } else st
    else st
  -- split or accumulate
  if c = delim && !(st.inValue || st.inDq || st.inPar || st.isDay) then
    { st with tokens := st.tokens ++ [pyStrip st.current], current := "" }
  else
    { st with current := st.current.push c }

/-- The full left-to-right scan of `header_content_split` (loop plus the
final strip of the last accumulated token). -/
def headerContentScan (delim : Char) (s : String) : List String :=
  let cs := s.data
  let final := (cs.zip (List.range cs.length)).foldl
    (fun st p => splitStep delim (dayAt cs p.2) p.1 st) initScan
  final.tokens ++ [pyStrip final.current]

/-- `utils.header_content_split(string, delimiter)`: split `string` at
`delimiter`, ignoring delimiters inside double quotes, inside parentheses,
and commas directly preceded by a weekday abbreviation.  Python raises
`ValueError` for a delimiter other than `;`, `,` or space; that is the
`Except.error` branch. -/
def header_content_split (s : String) (delim : Char) : Except String (List String) :=
  if delim = ';' || delim = ',' || delim = ' ' then .ok (headerContentScan delim s)
  else .error "Delimiter should be either semi-colon, a coma or a space."

/-- `utils.unquote`: strip one pair of surrounding double quotes (length at
least 2) or surrounding apostrophes.  The Python condition is
`len >= 2 and (dquotes) or (squotes)` with `and` binding tighter than `or`,
so the length guard applies only to the double-quote case; that precedence
is preserved here. -/
def unquote (s : String) : String :=
  let cs := s.data
  if (decide (2 ≤ cs.length) && cs.head? = some '"' && cs.getLast? = some '"')
      || (cs.head? = some '\x27' && cs.getLast? = some '\x27') then
    ⟨(cs.drop 1).dropLast⟩
  else s

/-- Character-level form of Python `content.replace('\\"', '"')`. -/
def unescDq : List Char → List Char
  | '\\' :: '"' :: rest => '"' :: unescDq rest
  | c :: rest => c :: unescDq rest
  | [] => []

/-- `utils.unescape_double_quote`: drop the backslash of every escaped
double quote. -/
def unescape_double_quote (s : String) : String := ⟨unescDq s.data⟩

/-- Character-level form of Python `content.replace('"', '\\"')`. -/
def escDq : List Char → List Char
  | '"' :: rest => '\\' :: '"' :: escDq rest
  | c :: rest => c :: escDq rest
  | [] => []

/-- `utils.escape_double_quote`: unescape first, then escape every double
quote with a backslash. -/
def escape_double_quote (s : String) : String := ⟨escDq (unescDq s.data)⟩

/-! ## The attribute index (`models.Attributes`)

`Attributes._bag` is a `CaseInsensitiveDict` mapping the normalized key to
the pair `(cased key, (values, positions))`, in key-insertion order.  It is
modelled as an ordered list of entries; lookups go through the normalized
key.  Reachable bags hold at most one entry per normalized key, equal-length
non-empty `values`/`positions` lists (captured by `bagWf` below). -/

/-- One `CaseInsensitiveDict` slot of `Attributes._bag`: the cased key, the
list of optional values and the list of position indexes for this key. -/
structure AttrEntry where
  cased : String
  values : List (Option String)
  positions : List Nat
deriving Repr, DecidableEq

/-- The attribute bag, in key-insertion order. -/
abbrev Bag := List AttrEntry

/-- Normalized key of an entry (the `CaseInsensitiveDict` lookup key). -/
def nkeyOf (e : AttrEntry) : String := normalize_str e.cased

/-- Whether `e` is the bag slot for `key` (case-insensitive lookup). -/
def keyMatch (key : String) (e : AttrEntry) : Bool := nkeyOf e = normalize_str key

/-- `key in self._bag` on a `CaseInsensitiveDict`. -/
def hasKey (bag : Bag) (key : String) : Bool := bag.any (keyMatch key)

/-- `Attributes.last_index`: `None` when the bag has no key, otherwise the
maximum position over all keys (Python folds `max(indexes)` per key into a
running maximum starting at 0; entries of reachable bags are non-empty, for
which `foldl max 0` is exactly `max(indexes)`). -/
def lastIndexA (bag : Bag) : Option Nat :=
  if bag.isEmpty then none
  else some (bag.foldl (fun m e => max m (e.positions.foldl max 0)) 0)

/-- `Attributes.__len__`: last index plus one, or 0 for an empty bag. -/
def lengthA (bag : Bag) : Nat :=
  match lastIndexA bag with
  | some n => n + 1
  | none => 0

/-- Python `list.index`: index of the first occurrence of `x` (callers
guard membership; on a list without `x` Python raises, this returns the
length). -/
def listIdx (x : Nat) : List Nat → Nat
  | [] => 0
  | y :: ys => if y = x then 0 else listIdx x ys + 1

/-- `Attributes.__getitem__` with an integer: scan the bag in order for the
entry whose `positions` contain `i` and return its cased key with the value
stored at the matching slot; `none` models the `IndexError` raise. -/
def getPos (bag : Bag) (i : Nat) : Option (String × Option String) :=
  match bag.find? (fun e => e.positions.contains i) with
  | some e =>
    match e.values.get? (listIdx i e.positions) with
    | some v => some (e.cased, v)
    | none => none
  | none => none

/-- Position shift used by `Attributes.insert`: every position at or after
the insertion index is incremented. -/
def shiftUp (i p : Nat) : Nat := if i ≤ p then p + 1 else p

/-- The `insert` renumbering loop: increment all stored positions `≥ i`. -/
def bumpFrom (i : Nat) (bag : Bag) : Bag :=
  bag.map (fun e => { e with positions := e.positions.map (shiftUp i) })

/-- Append a `(value, position)` occurrence to the slot of `key`. -/
def appendTo (key : String) (value : Option String) (pos : Nat) (bag : Bag) : Bag :=
  bag.map (fun e =>
    if keyMatch key e then
      { e with values := e.values ++ [value], positions := e.positions ++ [pos] }
    else e)

/-- `Attributes.insert(key, value, index)`.  With no index the occurrence is
appended at position `len(self)`; with an index every existing position at
or after it is incremented first and the new occurrence takes the index.
Python additionally resolves a negative index modulo the current length;
positions here are naturals, which covers every claim (all use nonnegative
indexes). -/
def insertA (key : String) (value : Option String) (index : Option Nat) (bag : Bag) : Bag :=
  let pos := match index with | some i => i | none => lengthA bag
  let bag1 := match index with | some i => bumpFrom i bag | none => bag
  if hasKey bag1 key then appendTo key value pos bag1
  else bag1 ++ [⟨key, [value], [pos]⟩]

/-- Remove the occurrence at a given position from an entry
(`values.pop(pos)` / `positions.pop(pos)` with `pos = positions.index(i)`). -/
def popPos (i : Nat) (e : AttrEntry) : AttrEntry :=
  let p := listIdx i e.positions
  ⟨e.cased, e.values.eraseIdx p, e.positions.eraseIdx p⟩

/-- `del self._bag[key]` (removal of the slot of the normalized key). -/
def deleteKey (key : String) (bag : Bag) : Bag :=
  bag.filter (fun e => !keyMatch key e)

/-- Replace the slot of `key` by `e'`, in place. -/
def replaceEntry (key : String) (e' : AttrEntry) (bag : Bag) : Bag :=
  bag.map (fun e => if keyMatch key e then e' else e)

/-- The renumbering condition of `Attributes.remove`: a surviving position
is decremented when the slot right below it was freed, or when it exceeds
the maximal freed index.  (Python tests `index_ - 1 in freed_indexes`,
which is false for `index_ = 0` since `-1` is never a freed index.) -/
def shiftDown (freed : List Nat) (maxF : Nat) (p : Nat) : Nat :=
  if decide (1 ≤ p) && freed.contains (p - 1) then p - 1
  else if decide (maxF < p) then p - 1
  else p

/-- The final renumbering loop of `Attributes.remove`, with
`maxF = max(freed_indexes)` (callers ensure `freed` is non-empty). -/
def decrementAll (freed : List Nat) (bag : Bag) : Bag :=
  let maxF := freed.foldl max 0
  bag.map (fun e => { e with positions := e.positions.map (shiftDown freed maxF) })

/-- Common tail of `Attributes.remove`: write back the updated slot, drop it
when its value list became empty, then renumber.  An empty `freed` list with
a non-empty remaining bag is Python's `max(())` `ValueError`. -/
def removeFinish (key : String) (freed : List Nat) (e' : AttrEntry) (bag : Bag) :
    Except String Bag :=
  let bag1 := replaceEntry key e' bag
  let bag2 := if e'.values.isEmpty then deleteKey key bag1 else bag1
  if bag2.isEmpty then .ok bag2
  else if freed.isEmpty then .error "max() arg is an empty sequence"
  else .ok (decrementAll freed bag2)

/-- `Attributes.remove(key, index, with_value)`.  An absent key returns
silently; setting both `index` and `with_value` raises `ValueError`; an
index absent from the key's positions is Python's `list.index` `ValueError`.
Python resolves a negative index modulo the length; positions here are
naturals (every claim uses nonnegative indexes).  Errors raised after
mutation leave the Python object partially mutated; the `Except` model
returns only the error, which no claim observes. -/
def removeA (key : String) (index : Option Nat) (withValue : Option Bool) (bag : Bag) :
    Except String Bag :=
  if !hasKey bag key then .ok bag
  else
    match bag.find? (keyMatch key) with
    | none => .ok bag  -- unreachable: hasKey guarantees a slot
    | some e =>
      match index, withValue with
      | some _, some _ => .error "Cannot set both index and with_value in the remove method."
      | some i, none =>
        if e.positions.contains i then removeFinish key [i] (popPos i e) bag
        else .error "x not in list"
      | none, some b =>
        let freed := (e.positions.zip e.values).filterMap
          (fun pv => if (b && pv.2.isSome) || (!b && pv.2.isNone) then some pv.1 else none)
        removeFinish key freed (freed.foldl (fun acc i => popPos i acc) e) bag
      | none, none =>
        removeFinish key e.positions ⟨e.cased, [], []⟩ bag

/-- The part of a member before the first `=` (`member.split("=", 1)[0]`). -/
def memberKey (m : String) : String := ⟨m.data.takeWhile (· ≠ '=')⟩

/-- The part of a member after the first `=` (`member.split("=", 1)[1]`). -/
def memberValue (m : String) : String := ⟨(m.data.dropWhile (· ≠ '=')).tail⟩

/-- The base64-ambiguity guard of `Attributes.__init__`
(`value.count("=") == len(value) or len(value) == 0 or " " in key`): the
value consists only of `=` characters (an empty value also passes the first
test), or the value is empty, or the key contains a space. -/
def base64Like (k v : String) : Bool :=
  decide (v.data.countP (· = '=') = v.length) || decide (v.length = 0) ||
    k.data.contains ' '

/-- Member classification of `Attributes.__init__`: a member containing `=`
is split at the first `=` into key and value; when the base64 guard fires
the member is demoted to an adjective (`value = None`); otherwise the value
is unquoted and unescaped.  A member without `=` is an unquoted adjective. -/
def classifyMember (m : String) : String × Option String :=
  if m.data.contains '=' then
    if base64Like (memberKey m) (memberValue m) then (unquote m, none)
    else (memberKey m, some (unescape_double_quote (unquote (memberValue m))))
  else (unquote m, none)

/-- `Attributes.__init__(members)`: classify each non-empty member in order
and insert it at the end of the bag.  (Python `str()`-converts non-string
members; members are strings here by construction.) -/
def attributesInit (members : List String) : Bag :=
  members.foldl
    (fun bag m =>
      if m = "" then bag
      else
        let kv := classifyMember m
        insertA kv.1 kv.2 none bag)
    []

/-- Serialisation piece of `Attributes.__str__`: append one `(key, value)`
pair to the accumulated content. -/
def renderPair (acc : String) (kv : String × Option String) : String :=
  match kv.2 with
  | some v => acc ++ (if acc ≠ "" then "; " else "") ++ kv.1 ++ "=\"" ++ escape_double_quote v ++ "\""
  | none => if acc ≠ "" then acc ++ "; " ++ kv.1 else acc ++ kv.1

/-- `Attributes.__str__`: empty bag renders as `""`; otherwise every dense
position in order is looked up and rendered (`none` models the `IndexError`
raise on a bag whose positions have a gap). -/
def attrsToStr (bag : Bag) : Option String :=
  if bag.isEmpty then some ""
  else ((List.range (lengthA bag)).mapM (getPos bag)).map (List.foldl renderPair "")

/-- The dense-index invariant: the positions stored across all keys are
exactly `{0, ..., length-1}`, no gaps, no duplicates. -/
def denseCheck (bag : Bag) : Bool :=
  let ps := bag.foldl (fun acc e => acc ++ e.positions) []
  ps.length = lengthA bag && (List.range (lengthA bag)).all ps.contains

/-- Structural invariant of every reachable `Attributes._bag`: one slot per
normalized key (`CaseInsensitiveDict`), value and position lists of equal
length, and no empty slot (`remove` deletes a slot that runs empty). -/
def bagWf (bag : Bag) : Prop :=
  (bag.map nkeyOf).Nodup ∧
    ∀ e ∈ bag, e.values.length = e.positions.length ∧ e.values ≠ []

instance (bag : Bag) : Decidable (bagWf bag) := by
  unfold bagWf; infer_instance

/-- Sequential effectful map (Python loop that raises at the first failing
element), used instead of `List.mapM` for easy induction. -/
def exceptMap {α β : Type} (f : α → Except String β) : List α → Except String (List β)
  | [] => .ok []
  | x :: xs =>
    match f x with
    | .error e => .error e
    | .ok y =>
      match exceptMap f xs with
      | .error e => .error e
      | .ok ys => .ok (y :: ys)

/-- `list(self)` on an `Attributes` instance (`__iter__`): the triples
`(i, key, value)` for every dense position, failing like Python's
`IndexError` when a position in `range(len(self))` is unresolvable. -/
def listReprE (bag : Bag) : Except String (List (Nat × String × Option String)) :=
  exceptMap
    (fun i =>
      match getPos bag i with
      | some kv => .ok (i, kv.1, kv.2)
      | none => .error "not in defined indexes")
    (List.range (lengthA bag))

/-- The inner `for` loop of `Attributes.__eq__` for one left-hand triple
`pa`: scan the right-hand triples and record `(index_a, key_a, key_b)`
(keys normalized) into `check` at the first match not already recorded. -/
def eqStep (rb : List (Nat × String × Option String))
    (check : List (Nat × String × String)) (pa : Nat × String × Option String) :
    List (Nat × String × String) :=
  rb.foldl
    (fun ch pb =>
      if normalize_str pa.2.1 = normalize_str pb.2.1 ∧ pa.2.2 = pb.2.2 ∧
          ¬ ch.contains (pa.1, normalize_str pa.2.1, normalize_str pb.2.1) then
        ch ++ [(pa.1, normalize_str pa.2.1, normalize_str pb.2.1)]
      else ch)
    check

/-- `Attributes.__eq__`: unequal lengths compare false; otherwise both
sides are listed and the double loop fills `list_check`; the result is
whether one tuple was recorded per left-hand triple. -/
def attrEqE (a b : Bag) : Except String Bool :=
  if lengthA a ≠ lengthA b then .ok false
  else
    match listReprE a with
    | .error e => .error e
    | .ok ra =>
      match listReprE b with
      | .error e => .error e
      | .ok rb => .ok ((ra.foldl (eqStep rb) []).length = ra.length)

/-! ## JSON payloads (`json.loads` as used by `Header.__init__`)

`Header.__init__` decodes a JSON-looking content into members.  The decoder
below accepts the JSON grammar the way `json.loads` does, with two
documented deviations that no claim exercises: numbers are kept as their
source lexeme instead of Python `int`/`float` objects (so `str()` of a
number is its lexeme), and lone surrogate `\uXXXX` escapes are not mapped. -/

/-- A decoded JSON value.  `num` keeps the numeric lexeme. -/
inductive PyJson where
  | null
  | bool (b : Bool)
  | num (raw : String)
  | str (s : String)
  | arr (xs : List PyJson)
  | obj (kvs : List (String × PyJson))

/-- JSON insignificant whitespace. -/
def skipWs (cs : List Char) : List Char :=
  cs.dropWhile (fun c => c = ' ' || c = '\t' || c = '\n' || c = '\r')

/-- Numeric value of one hexadecimal digit, as `int(c, 16)` would give. -/
def jsonHexDigit (c : Char) : Option Nat :=
  let n := c.toNat
  if 48 ≤ n ∧ n ≤ 57 then some (n - 48)
  else if 97 ≤ n ∧ n ≤ 102 then some (n - 87)
  else if 65 ≤ n ∧ n ≤ 70 then some (n - 55)
  else none

/-- The codepoint named by the four hex digits of a `\uXXXX` escape. -/
def jsonHexQuad (a b c d : Char) : Option Nat :=
  ([a, b, c, d].mapM jsonHexDigit).map (List.foldl (fun acc v => acc * 16 + v) 0)

/-- The character a single-letter JSON escape stands for. -/
def jsonEscChar (c : Char) : Option Char :=
  [('"', '"'), ('\\', '\\'), ('/', '/'), ('b', '\x08'), ('f', '\x0c'),
   ('n', '\n'), ('r', '\r'), ('t', '\t')].lookup c

/-- Body of a JSON string after the opening quote: characters up to the
closing quote, with the standard escapes resolved. -/
def jsonStringBody : List Char → Option (List Char × List Char)
  | [] => none
  | c :: rest =>
    if c = '"' then some ([], rest)
    else if c = '\\' then
      match rest with
      | [] => none
      | e :: rest2 =>
        if e = 'u' then
          match rest2 with
          | h1 :: h2 :: h3 :: h4 :: rest3 =>
            match jsonHexQuad h1 h2 h3 h4 with
            | some n => (jsonStringBody rest3).map (fun p => (Char.ofNat n :: p.1, p.2))
            | none => none
          | _ => none
        else
          match jsonEscChar e with
          | some d => (jsonStringBody rest2).map (fun p => (d :: p.1, p.2))
          | none => none
    else if c.toNat < 0x20 then none
    else (jsonStringBody rest).map (fun p => (c :: p.1, p.2))

/-- Characters a numeric lexeme may contain. -/
def numChar (c : Char) : Bool :=
  ('0' ≤ c && c ≤ '9') || c = '-' || c = '+' || c = '.' || c = 'e' || c = 'E'

/-- Validation of a numeric lexeme against the JSON number grammar
`-?(0|[1-9][0-9]*)(.[0-9]+)?([eE][+-]?[0-9]+)?`. -/
def validNum (cs : List Char) : Bool :=
  let digits := fun c => '0' ≤ c && c ≤ '9'
  let afterSign := match cs with | '-' :: r => r | r => r
  let intOk : Bool × List Char :=
    match afterSign with
    | '0' :: r => (true, r)
    | c :: r => if digits c && c ≠ '0' then (true, r.dropWhile digits) else (false, [])
    | [] => (false, [])
  if !intOk.1 then false
  else
    let afterFrac : Bool × List Char :=
      match intOk.2 with
      | '.' :: r => (!(r.takeWhile digits).isEmpty, r.dropWhile digits)
      | r => (true, r)
    if !afterFrac.1 then false
    else
      match afterFrac.2 with
      | [] => true
      | e :: r =>
        if e = 'e' || e = 'E' then
          let r := match r with | '+' :: r2 => r2 | '-' :: r2 => r2 | r2 => r2
          !(r.takeWhile digits).isEmpty && (r.dropWhile digits).isEmpty
        else false

/-- Replace the binding of `k`, or append it: the behaviour of a Python
`dict` fed duplicate keys while decoding a JSON object. -/
def objInsert (kvs : List (String × PyJson)) (k : String) (v : PyJson) :
    List (String × PyJson) :=
  if kvs.any (fun kv => kv.1 = k) then
    kvs.map (fun kv => if kv.1 = k then (k, v) else kv)
  else kvs ++ [(k, v)]

/-- Strip a literal keyword from the head of the input. -/
def stripLit (kw : String) (cs : List Char) : Option (List Char) :=
  if cs.take kw.length = kw.data then some (cs.drop kw.length) else none

mutual

/-- One JSON value at the head of the input (after whitespace).  The
keyword alternatives mirror what `json.loads` accepts by default,
`NaN`/`Infinity`/`-Infinity` included. -/
def jsonVal : Nat → List Char → Option (PyJson × List Char)
  | 0, _ => none
  | fuel + 1, cs =>
    let cs := skipWs cs
    match stripLit "null" cs with
    | some rest => some (.null, rest)
    | none =>
    match stripLit "true" cs with
    | some rest => some (.bool true, rest)
    | none =>
    match stripLit "false" cs with
    | some rest => some (.bool false, rest)
    | none =>
    match stripLit "NaN" cs with
    | some rest => some (.num "nan", rest)
    | none =>
    match stripLit "Infinity" cs with
    | some rest => some (.num "inf", rest)
    | none =>
    match stripLit "-Infinity" cs with
    | some rest => some (.num "-inf", rest)
    | none =>
    match cs with
    | '"' :: rest => (jsonStringBody rest).map (fun p => (.str ⟨p.1⟩, p.2))
    | '[' :: rest => jsonArr fuel (skipWs rest)
    | '\x7b' :: rest => jsonObj fuel (skipWs rest)
    | c :: rest =>
      if numChar c then
        let lexeme := c :: rest.takeWhile numChar
        if validNum lexeme then some (.num ⟨lexeme⟩, rest.dropWhile numChar) else none
      else none
    | [] => none

/-- Array elements after `[` (whitespace already skipped). -/
def jsonArr : Nat → List Char → Option (PyJson × List Char)
  | 0, _ => none
  | fuel + 1, cs =>
    match cs with
    | ']' :: rest => some (.arr [], rest)
    | _ => jsonArrLoop fuel cs []

/-- `value (, value)* ]` inside an array. -/
def jsonArrLoop : Nat → List Char → List PyJson → Option (PyJson × List Char)
  | 0, _, _ => none
  | fuel + 1, cs, acc =>
    match jsonVal fuel cs with
    | none => none
    | some (v, rest) =>
      match skipWs rest with
      | ',' :: rest2 => jsonArrLoop fuel rest2 (acc ++ [v])
      | ']' :: rest2 => some (.arr (acc ++ [v]), rest2)
      | _ => none

/-- Object members after `{` (whitespace already skipped). -/
def jsonObj : Nat → List Char → Option (PyJson × List Char)
  | 0, _ => none
  | fuel + 1, cs =>
    match cs with
    | '\x7d' :: rest => some (.obj [], rest)
    | _ => jsonObjLoop fuel cs []

/-- `"key" : value (, "key" : value)* }` inside an object. -/
def jsonObjLoop : Nat → List Char → List (String × PyJson) → Option (PyJson × List Char)
  | 0, _, _ => none
  | fuel + 1, cs, acc =>
    match skipWs cs with
    | '"' :: rest =>
      match jsonStringBody rest with
      | none => none
      | some (k, rest2) =>
        match skipWs rest2 with
        | ':' :: rest3 =>
          match jsonVal fuel rest3 with
          | none => none
          | some (v, rest4) =>
            let acc := objInsert acc ⟨k⟩ v
            match skipWs rest4 with
            | ',' :: rest5 => jsonObjLoop fuel rest5 acc
            | '\x7d' :: rest5 => some (.obj acc, rest5)
            | _ => none
        | _ => none
    | _ => none

end

/-- `json.loads`: decode one JSON document, requiring only whitespace after
the value. -/
def jsonLoads (s : String) : Option PyJson :=
  match jsonVal (s.data.length + 1) s.data with
  | some (v, rest) => if (skipWs rest).isEmpty then some v else none
  | none => none

mutual

/-- Python `repr` of a decoded JSON value, as it appears when a container is
`str()`-converted (strings quoted; `repr` escape sequences inside nested
strings are not reproduced, which no claim exercises). -/
def pyRepr : PyJson → String
  | .null => "None"
  | .bool true => "True"
  | .bool false => "False"
  | .num raw => raw
  | .str s => "\x27" ++ s ++ "\x27"
  | .arr xs => "[" ++ pyReprArr xs ++ "]"
  | .obj kvs => "\x7b" ++ pyReprObj kvs ++ "\x7d"

/-- Comma-joined `repr`s of list elements. -/
def pyReprArr : List PyJson → String
  | [] => ""
  | [x] => pyRepr x
  | x :: xs => pyRepr x ++ ", " ++ pyReprArr xs

/-- Comma-joined `repr`s of dict items. -/
def pyReprObj : List (String × PyJson) → String
  | [] => ""
  | [kv] => "\x27" ++ kv.1 ++ "\x27: " ++ pyRepr kv.2
  | kv :: kvs => "\x27" ++ kv.1 ++ "\x27: " ++ pyRepr kv.2 ++ ", " ++ pyReprObj kvs

end

/-- Python `str()` of a decoded JSON value: a string is itself, anything
else is its `repr`. -/
def pyStr : PyJson → String
  | .str s => s
  | v => pyRepr v

/-! ## Header construction (`models.Header.__init__` and helpers) -/

/-- A character rejected by the `is_legal_header_name` regular expression
`[^\x21-\x7F]|[:;(),<>=@?\[\]\r\n\t &{}"\\]`: anything outside the
printable band `0x21`–`0x7F` (note DEL, `0x7F`, is inside the band), or one
of the explicitly listed delimiters. -/
def forbiddenChar (c : Char) : Bool :=
  !(decide (0x21 ≤ c.toNat) && decide (c.toNat ≤ 0x7F)) ||
    c ∈ [':', ';', '(', ')', ',', '<', '>', '=', '@', '?', '[', ']',
         '\r', '\n', '\t', ' ', '&', '\x7b', '\x7d', '"', '\\']

/-- `utils.is_legal_header_name`: non-empty and free of forbidden
characters. -/
def is_legal_header_name (name : String) : Bool :=
  name ≠ "" && !name.data.any forbiddenChar

/-- Python `str.capitalize`: first character uppercased, the rest
lowercased (ASCII model). -/
def pyCapitalize (s : String) : String :=
  match s.data with
  | [] => ""
  | c :: rest => ⟨c.toUpper :: rest.map Char.toLower⟩

/-- Split a character list at a separator character (Python
`str.split(sep)`: empty pieces preserved). -/
def splitOnChar (sep : Char) : List Char → List (List Char)
  | [] => [[]]
  | c :: rest =>
    let r := splitOnChar sep rest
    if c = sep then [] :: r
    else
      match r with
      | p :: ps => (c :: p) :: ps
      | [] => [[c]]

/-- Join strings with a separator. -/
def joinSep (sep : String) : List String → String
  | [] => ""
  | [x] => x
  | x :: xs => x ++ sep ++ joinSep sep xs

/-- `utils.prettify_header_name`: replace `_` by `-`, split at `-`,
capitalize each piece, join back with `-`. -/
def prettify_header_name (name : String) : String :=
  joinSep "-"
    ((splitOnChar '-' (name.data.map (fun c => if c = '_' then '-' else c))).map
      (fun p => pyCapitalize ⟨p⟩))

/-- `utils.is_content_json_object`: stripped content surrounded by braces
or by brackets. -/
def is_content_json_object (content : String) : Bool :=
  let cs := (pyStrip content).data
  (cs.head? = some '\x7b' && cs.getLast? = some '\x7d') ||
    (cs.head? = some '[' && cs.getLast? = some ']')

/-- A member produced from a JSON list element: strings stay, anything else
is `str()`-converted (done by `Attributes.__init__` in Python). -/
def memberOfJson (v : PyJson) : String :=
  match v with
  | .str s => s
  | v => pyRepr v

/-- The member list of a JSON payload: a list maps to its elements, a dict
to `"k=v"` members (`k` for a `null` value); any other payload is the
`ValueError` for malformed header content. -/
def jsonMembers (p : PyJson) : Except String (List String) :=
  match p with
  | .arr xs => .ok (xs.map memberOfJson)
  | .obj kvs =>
    .ok (kvs.map (fun kv =>
      match kv.2 with
      | .null => kv.1
      | v => kv.1 ++ "=" ++ pyStr v))
  | _ => .error "is malformed."

/-- `models.Header`: declared name, normalized and prettified forms, the
raw content, the member list and the attribute bag built from it. -/
structure HeaderM where
  name : String
  normalizedName : String
  prettyName : String
  content : String
  members : List String
  attrs : Bag
deriving DecidableEq

/-- `Header.__init__(name, content)`: reject an illegal name; decode a
JSON-looking content into members (failing on malformed JSON), otherwise
tokenize the content on `;`; then build the attribute bag.  (Python wraps
the offending name in single quotes inside the error message; the quotes
are omitted here.) -/
def mkHeader (name content : String) : Except String HeaderM :=
  if !is_legal_header_name name then
    .error (name ++ " is not a valid header name. Cannot proceed with it.")
  else
    let membersE : Except String (List String) :=
      if is_content_json_object content then
        match jsonLoads content with
        | none => .error ("Header " ++ name ++ " contain an invalid JSON value.")
        | some p =>
          match jsonMembers p with
          | .error _ => .error ("Header " ++ name ++ " is malformed.")
          | .ok ms => .ok ms
      else header_content_split content ';'
    match membersE with
    | .error e => .error e
    | .ok ms =>
      .ok ⟨name, normalize_str name, prettify_header_name name, content, ms,
           attributesInit ms⟩

/-! ## Header collections (`models.Headers`) -/

/-- `models.Headers`: the ordered list of headers. -/
abbrev HeadersM := List HeaderM

/-- `Headers.__contains__` with a string: some header has the normalized
name. -/
def headersContains (hs : HeadersM) (key : String) : Bool :=
  hs.any (fun h => h.normalizedName = normalize_str key)

/-- `Headers.__delitem__`: drop every header whose normalized name matches
(collect-then-`list.remove` in Python, equivalent to a filter). -/
def headersDelAll (hs : HeadersM) (key : String) : HeadersM :=
  hs.filter (fun h => !(h.normalizedName = normalize_str key))

/-- `Headers.__setitem__(key, value)`: delete existing headers of that
name; for a non-`subject` key whose value splits at `,` into several
entries, append one freshly constructed header per entry; otherwise append
a single header holding the whole value.  Header construction failures
propagate (in Python, entries appended before the failing one stay; the
`Except` model returns only the error, which no claim observes). -/
def headersSetItem (hs : HeadersM) (key value : String) : Except String HeadersM :=
  let hs1 := if headersContains hs key then headersDelAll hs key else hs
  if normalize_str key ≠ "subject" then
    match header_content_split value ',' with
    | .error e => .error e
    | .ok entries =>
      if 1 < entries.length then
        match exceptMap (fun entry => mkHeader key entry) entries with
        | .error e => .error e
        | .ok new => .ok (hs1 ++ new)
      else
        match mkHeader key value with
        | .error e => .error e
        | .ok h => .ok (hs1 ++ [h])
  else
    match mkHeader key value with
    | .error e => .error e
    | .ok h => .ok (hs1 ++ [h])

/-! ## Python doctest checks (sanity of the embedding) -/

/-- The tokenizer reproduces the `header_content_split` doctests. -/
theorem header_content_split_doctests :
    header_content_split "text/html; charset=UTF-8" ';' = .ok ["text/html", "charset=UTF-8"] ∧
    header_content_split "" ';' = .ok [""] ∧
    header_content_split
        "Mozilla/5.0 (Macintosh; Intel Mac OS X 10.9; rv:50.0) Gecko/20100101 Firefox/50.0" ';' =
      .ok ["Mozilla/5.0 (Macintosh; Intel Mac OS X 10.9; rv:50.0) Gecko/20100101 Firefox/50.0"] :=
  ⟨rfl, rfl, rfl⟩

/-- The attribute index reproduces the `Attributes` doctests: construction,
serialisation, the three removal modes and positional insertion. -/
theorem attributes_doctests :
    attrsToStr (attributesInit ["text/html", "charset=UTF-8"]) =
      some "text/html; charset=\"UTF-8\"" ∧
    attrsToStr (insertA "charset" none none (attributesInit ["text/html", "charset=UTF-8"])) =
      some "text/html; charset=\"UTF-8\"; charset" ∧
    attrsToStr (insertA "charset" (some "UTF-8") (some 1) (attributesInit ["text/html", "charset"])) =
      some "text/html; charset=\"UTF-8\"; charset" ∧
    (removeA "charset" (some 1) none
        (attributesInit ["text/html", "charset=UTF-8", "charset"])).map attrsToStr =
      .ok (some "text/html; charset") ∧
    (removeA "charset" none (some false)
        (attributesInit ["text/html", "charset=UTF-8", "charset"])).map attrsToStr =
      .ok (some "text/html; charset=\"UTF-8\"") ∧
    (removeA "charset" none none
        (attributesInit ["text/html", "charset=UTF-8", "charset"])).map attrsToStr =
      .ok (some "text/html") :=
  ⟨rfl, rfl, rfl, rfl, rfl, rfl⟩

/-! ## Claim theorems -/

/-- Claim C1 (code bug): the dense-index invariant does not survive every
remove.  Removing key `b`, which occurs twice below the surviving position
of `c`, from `a; b=1; b=2; c` frees positions 1 and 2 but decrements the
position of `c` only once (the renumbering loop of `Attributes.remove`
subtracts at most 1), leaving positions `{0, 2}` for a length-3 index: a
gap at 1.  The invariant held before the removal. -/
theorem dense_invariant_breaks_on_multi_remove :
    removeA "b" none none (attributesInit ["a", "b=1", "b=2", "c"]) =
      .ok [⟨"a", [none], [0]⟩, ⟨"c", [none], [2]⟩] ∧
    denseCheck [⟨"a", [none], [0]⟩, ⟨"c", [none], [2]⟩] = false ∧
    denseCheck (attributesInit ["a", "b=1", "b=2", "c"]) = true :=
  ⟨rfl, rfl, rfl⟩

/-- Claim C2, counterexample: a requested `,` occurring right after `a=1`
— i.e. while the scanner is in the "in value" state entered at the bare
`=` — is treated as a split point: the result is `["a=1", "2"]`, not the
unsplit `["a=1,2"]` the claim requires. -/
theorem in_value_requested_delimiter_splits_cex :
    header_content_split "a=1,2" ',' = .ok ["a=1", "2"] ∧
    (["a=1", "2"] : List String) ≠ ["a=1,2"] :=
  ⟨rfl, by decide⟩

/-- Claim C5, counterexample: calling `remove` with both a position and
`with_value` on a key that is absent returns silently (the absent-key check
runs first), instead of failing with `InvalidArgument` as the claim states
for every key. -/
theorem remove_both_args_absent_key_cex :
    removeA "x" (some 0) (some true) ([] : Bag) = .ok [] ∧
    hasKey ([] : Bag) "x" = false :=
  ⟨rfl, rfl⟩

/-- Claim C5 (amended): when the key is present, `remove` called with both
a position and a `with_value` argument fails with the `InvalidArgument`
`ValueError`, before any mutation; when the key is absent it returns with
the bag unchanged and no error. -/
theorem remove_both_args_invalid :
    ∀ (bag : Bag) (key : String) (i : Nat) (b : Bool),
      (hasKey bag key = true →
        removeA key (some i) (some b) bag =
          .error "Cannot set both index and with_value in the remove method.") ∧
      (hasKey bag key = false → removeA key (some i) (some b) bag = .ok bag) := by
  intro bag key i b
  constructor
  · intro h
    unfold removeA
    rw [h]
    cases hf : bag.find? (keyMatch key) with
    | none =>
      exfalso
      obtain ⟨e, he, hm⟩ := List.any_eq_true.mp h
      exact absurd hm (by simpa using List.find?_eq_none.mp hf e he)
    | some e => rfl
  · intro h
    unfold removeA
    rw [h]
    rfl

/-- Claim C5, witness: the two branches of the amended statement at
concrete inputs. -/
theorem remove_both_args_invalid_witness :
    removeA "a" (some 0) (some true) (attributesInit ["a=1"]) =
      .error "Cannot set both index and with_value in the remove method." ∧
    removeA "z" (some 0) (some true) (attributesInit ["a=1"]) =
      .ok (attributesInit ["a=1"]) :=
  ⟨(remove_both_args_invalid (attributesInit ["a=1"]) "a" 0 true).1 (by decide),
   (remove_both_args_invalid (attributesInit ["a=1"]) "z" 0 true).2 (by decide)⟩

/-- Claim C6, counterexample: the DEL character `0x7F` lies inside the
accepted band `\x21`-`\x7F` of the name regular expression and is not in
the delimiter class, so `Header("\x7f", "x")` constructs successfully
instead of failing with `InvalidName`. -/
theorem header_name_del_accepted_cex :
    (mkHeader "\x7f" "x").isOk = true ∧ ('\x7f').toNat = 0x7F :=
  ⟨rfl, rfl⟩

/-- Claim C6 (amended): a name containing a character below `0x21`
(controls and space), above `0x7F` (non-ASCII; DEL itself is accepted), or
in the delimiter class `:;(),<>=@?[]` plus `&{}`, the double quote, the
backslash, `\r`, `\n` or `\t`, is rejected by header construction with the
`InvalidName` `ValueError`, whatever the content; the name is never
corrected. -/
theorem header_name_forbidden_rejected :
    ∀ name content : String, name.data.any forbiddenChar = true →
      mkHeader name content =
        .error (name ++ " is not a valid header name. Cannot proceed with it.") := by
  intro name content h
  have hleg : is_legal_header_name name = false := by
    unfold is_legal_header_name
    rw [h]
    simp
  unfold mkHeader
  rw [hleg]
  rfl

/-- Claim C6, witness: a name containing `:` is rejected at a concrete
input. -/
theorem header_name_forbidden_rejected_witness :
    mkHeader ":a" "x" = .error (":a is not a valid header name. Cannot proceed with it.") :=
  header_name_forbidden_rejected ":a" "x" (by decide)

/-- Claim C3: a comma whose three immediately preceding characters spell a
weekday abbreviation is never treated as a separator when splitting on `,`:
the scanner step at such a position leaves the emitted tokens unchanged and
only extends the current token (whatever the rest of the state); and the
spec's date example splits into exactly the two full date strings. -/
theorem date_comma_never_separates :
    (∀ (cs : List Char) (i : Nat) (st : ScanState), dayAt cs i = true →
      splitStep ',' (dayAt cs i) ',' st =
        { st with isDay := true, current := st.current.push ',' }) ∧
    header_content_split "Wed, 15-Apr-2020 21:27:31 GMT, Fri, 01-Jan-2038 00:00:00 GMT" ',' =
      .ok ["Wed, 15-Apr-2020 21:27:31 GMT", "Fri, 01-Jan-2038 00:00:00 GMT"] := by
  constructor
  · intro cs i st h
    rw [h]
    unfold splitStep
    cases st with
    | mk dq par val day toks cur => simp
  · rfl

/-- Claim C3, witness: the step fact applied at the comma of `"Wed,"`
(position 3, preceded by `Wed`), starting from the initial scanner state. -/
theorem date_comma_never_separates_witness :
    dayAt "Wed,".data 3 = true ∧
    splitStep ',' (dayAt "Wed,".data 3) ',' initScan =
      { initScan with isDay := true, current := "," } :=
  ⟨by decide, date_comma_never_separates.1 "Wed,".data 3 initScan (by decide)⟩

/-- Claim C2 (amended): while the scanner is in the "in value" state
(outside quotes and parentheses and with the date exception not applying),
an occurrence of the requested delimiter `,` or space is NOT suppressed: it
closes the value state and is treated as a split point.  A value can
contain the requested delimiter only through double quotes, parentheses or
the weekday-date exception. -/
theorem in_value_requested_delimiter_splits :
    ∀ (cs : List Char) (i : Nat) (st : ScanState) (delim : Char),
      (delim = ',' ∨ delim = ' ') → st.inDq = false → st.inPar = false →
      st.inValue = true → dayAt cs i = false →
      splitStep delim (dayAt cs i) delim st =
        { st with inValue := false, isDay := false,
                  tokens := st.tokens ++ [pyStrip st.current], current := "" } := by
  intro cs i st delim hd h1 h2 h3 h4
  rw [h4]
  unfold splitStep
  cases st with
  | mk dq par val day toks cur =>
    simp at h1 h2 h3
    subst h1 h2 h3
    rcases hd with h | h <;> subst h <;> simp

/-- Claim C2, witness: the amended step fact at the comma of `"a=1,2"`
(position 3), in the state the scan of `a=1` reaches there. -/
theorem in_value_requested_delimiter_splits_witness :
    dayAt "a=1,2".data 3 = false ∧
    splitStep ',' (dayAt "a=1,2".data 3) ','
        ⟨false, false, true, false, [], "a=1"⟩ =
      ⟨false, false, false, false, ["a=1"], ""⟩ :=
  ⟨by decide,
   in_value_requested_delimiter_splits "a=1,2".data 3
     ⟨false, false, true, false, [], "a=1"⟩ ',' (Or.inl rfl) rfl rfl rfl (by decide)⟩

/-- Claim C9: a member containing `=` whose part after the first `=` is all
`=` characters or empty, or whose part before the first `=` contains a
space, is classified by `Attributes.__init__` as an adjective — the whole
member, unquoted, with no value — never as a key/value pair; in particular
`dGVzdA==` becomes an adjective. -/
theorem base64_guard_adjective :
    (∀ m : String, m.data.contains '=' = true →
      ((memberValue m).data.countP (· = '=') = (memberValue m).length ∨
        (memberValue m).length = 0 ∨ (memberKey m).data.contains ' ' = true) →
      classifyMember m = (unquote m, none)) ∧
    attributesInit ["dGVzdA=="] = [⟨"dGVzdA==", [none], [0]⟩] := by
  constructor
  · intro m hc hcond
    have hg : base64Like (memberKey m) (memberValue m) = true := by
      unfold base64Like
      rcases hcond with h | h | h <;> simp_all
    unfold classifyMember
    rw [hc, hg]
    simp
  · rfl

/-- Claim C9, witness: the classification fact applied to `dGVzdA==`
(value part `=`, made only of `=` characters). -/
theorem base64_guard_adjective_witness :
    classifyMember "dGVzdA==" = ("dGVzdA==", none) :=
  base64_guard_adjective.1 "dGVzdA==" (by decide) (by decide)

theorem shiftUp_ne (i p : Nat) : shiftUp i p ≠ i := by
  unfold shiftUp
  split <;> omega

theorem shiftDown_shiftUp (i p : Nat) : shiftDown [i] ([i].foldl Nat.max 0) (shiftUp i p) = p := by
  unfold shiftDown shiftUp
  simp only [List.foldl_cons, List.foldl_nil, Nat.zero_max, List.contains_cons,
    List.contains_nil, Bool.or_false, Bool.and_eq_true, decide_eq_true_eq, beq_iff_eq]
  split
  · split <;> [skip; split] <;> omega
  · split <;> [skip; split] <;> omega

theorem map_shiftDown_shiftUp (i : Nat) (ps : List Nat) :
    (ps.map (shiftUp i)).map (shiftDown [i] ([i].foldl Nat.max 0)) = ps := by
  induction ps with
  | nil => rfl
  | cons p ps ih => simp only [List.map_cons, shiftDown_shiftUp i p, ih]

theorem decrementAll_bumpFrom (i : Nat) (bag : Bag) :
    decrementAll [i] (bumpFrom i bag) = bag := by
  unfold decrementAll bumpFrom
  rw [List.map_map]
  have key : ∀ e ∈ bag,
      ((fun e => { e with positions := e.positions.map (shiftDown [i] ([i].foldl Nat.max 0)) }) ∘
        (fun e => { e with positions := e.positions.map (shiftUp i) })) e = id e := by
    intro e _
    cases e with
    | mk c vs ps =>
      simp only [Function.comp, id]
      rw [map_shiftDown_shiftUp]
  exact (List.map_congr_left key).trans (List.map_id bag)

theorem listIdx_append_self (x : Nat) (l : List Nat) (h : ∀ y ∈ l, y ≠ x) :
    listIdx x (l ++ [x]) = l.length := by
  induction l with
  | nil => simp [listIdx]
  | cons y ys ih =>
    have hy : y ≠ x := h y (by simp)
    simp only [List.cons_append, listIdx, if_neg hy, List.length_cons]
    simp only [List.append_eq]
    have := ih (fun z hz => h z (by simp [hz]))
    omega

theorem eraseIdx_append_self {α : Type} (l : List α) (a : α) :
    (l ++ [a]).eraseIdx l.length = l := by
  rw [List.eraseIdx_append_of_length_le (Nat.le_refl _)]
  simp

-- keyMatch invariance under position-only rewrites
theorem keyMatch_bump (key : String) (i : Nat) (e : AttrEntry) :
    keyMatch key { e with positions := e.positions.map (shiftUp i) } = keyMatch key e := rfl

theorem hasKey_bumpFrom (key : String) (i : Nat) (bag : Bag) :
    hasKey (bumpFrom i bag) key = hasKey bag key := by
  unfold hasKey bumpFrom
  rw [List.any_map]
  rfl

theorem find?_bumpFrom (key : String) (i : Nat) (bag : Bag) :
    (bumpFrom i bag).find? (keyMatch key) =
      (bag.find? (keyMatch key)).map (fun e => { e with positions := e.positions.map (shiftUp i) }) := by
  unfold bumpFrom
  rw [List.find?_map]
  rfl

theorem roundtrip_fresh (bag : Bag) (key : String) (value : Option String) (i : Nat)
    (h : hasKey bag key = false) :
    removeA key (some i) none (insertA key value (some i) bag) = .ok bag := by
  have hbump : hasKey (bumpFrom i bag) key = false := by rw [hasKey_bumpFrom]; exact h
  have hnm : ∀ e ∈ bumpFrom i bag, keyMatch key e = false := by
    intro e he
    by_contra hc
    have hany : (bumpFrom i bag).any (keyMatch key) = true :=
      List.any_eq_true.mpr ⟨e, he, by simpa using hc⟩
    rw [show (bumpFrom i bag).any (keyMatch key) = hasKey (bumpFrom i bag) key from rfl,
      hbump] at hany
    exact Bool.false_ne_true hany
  have hnew : keyMatch key (⟨key, [value], [i]⟩ : AttrEntry) = true := by
    unfold keyMatch nkeyOf
    simp
  have hins : insertA key value (some i) bag = bumpFrom i bag ++ [⟨key, [value], [i]⟩] := by
    unfold insertA
    simp [hbump]
  rw [hins]
  have hhk : hasKey (bumpFrom i bag ++ [⟨key, [value], [i]⟩]) key = true := by
    unfold hasKey
    rw [List.any_append]
    have : ([⟨key, [value], [i]⟩] : Bag).any (keyMatch key) = true := by simp [hnew]
    rw [this, show (bumpFrom i bag).any (keyMatch key) = false from hbump]
    rfl
  have hfind : (bumpFrom i bag ++ [(⟨key, [value], [i]⟩ : AttrEntry)]).find? (keyMatch key) =
      some (⟨key, [value], [i]⟩ : AttrEntry) := by
    rw [List.find?_append]
    have h1 : (bumpFrom i bag).find? (keyMatch key) = none :=
      List.find?_eq_none.mpr (by intro x hx; simp [hnm x hx])
    rw [h1, Option.none_or]
    exact List.find?_cons_of_pos _ hnew
  unfold removeA
  rw [hhk, hfind]
  have hcont : (⟨key, [value], [i]⟩ : AttrEntry).positions.contains i = true := by simp
  simp only [Bool.not_true, Bool.false_eq_true, if_false, hcont, if_true]
  have hpop : popPos i (⟨key, [value], [i]⟩ : AttrEntry) = ⟨key, [], []⟩ := by
    unfold popPos listIdx
    simp
  rw [hpop]
  unfold removeFinish
  have hrepl : replaceEntry key (⟨key, [], []⟩ : AttrEntry)
      (bumpFrom i bag ++ [⟨key, [value], [i]⟩]) = bumpFrom i bag ++ [⟨key, [], []⟩] := by
    unfold replaceEntry
    rw [List.map_append]
    congr 1
    · exact (List.map_congr_left (fun e he => by rw [hnm e he]; rfl)).trans (List.map_id _)
    · simp [hnew]
  rw [hrepl]
  have hdel : deleteKey key (bumpFrom i bag ++ [⟨key, [], []⟩]) = bumpFrom i bag := by
    unfold deleteKey
    rw [List.filter_append]
    have h1 : (bumpFrom i bag).filter (fun e => !keyMatch key e) = bumpFrom i bag :=
      List.filter_eq_self.mpr (fun e he => by rw [hnm e he]; rfl)
    have hm : keyMatch key (⟨key, [], []⟩ : AttrEntry) = true := by
      unfold keyMatch nkeyOf
      simp
    have h2 : ([⟨key, [], []⟩] : Bag).filter (fun e => !keyMatch key e) = [] := by
      simp [hm]
    rw [h1, h2, List.append_nil]
  have hemp : ((⟨key, [], []⟩ : AttrEntry).values.isEmpty) = true := rfl
  rw [hemp]
  simp only [eq_self_iff_true, if_true, hdel]
  by_cases hE : (bumpFrom i bag).isEmpty = true
  · have hnil : bag = [] := by
      have := List.isEmpty_iff.mp hE
      unfold bumpFrom at this
      exact List.map_eq_nil_iff.mp this
    subst hnil
    simp [bumpFrom]
  · rw [if_neg (by simpa using hE)]
    rw [if_neg (by simp)]
    rw [decrementAll_bumpFrom]

theorem nkeyOf_eq_of_keyMatch {key : String} {e : AttrEntry} (h : keyMatch key e = true) :
    nkeyOf e = normalize_str key := by
  unfold keyMatch at h
  exact of_decide_eq_true h

theorem roundtrip_existing (bag : Bag) (key : String) (value : Option String) (i : Nat)
    (hwf : bagWf bag) (h : hasKey bag key = true) :
    removeA key (some i) none (insertA key value (some i) bag) = .ok bag := by
  -- the unique slot of the key
  obtain ⟨e0, hfind0⟩ : ∃ e0, bag.find? (keyMatch key) = some e0 := by
    have := List.find?_isSome.mpr (List.any_eq_true.mp h)
    exact Option.isSome_iff_exists.mp this
  have hmem0 : e0 ∈ bag := List.mem_of_find?_eq_some hfind0
  have hkm0 : keyMatch key e0 = true := List.find?_some hfind0
  have hlen0 : e0.values.length = e0.positions.length := (hwf.2 e0 hmem0).1
  have hvne : e0.values ≠ [] := (hwf.2 e0 hmem0).2
  have huniq : ∀ e ∈ bag, keyMatch key e = true → e = e0 :=
    fun e he hk =>
      List.inj_on_of_nodup_map hwf.1 he hmem0
        ((nkeyOf_eq_of_keyMatch hk).trans (nkeyOf_eq_of_keyMatch hkm0).symm)
  have hbump : hasKey (bumpFrom i bag) key = true := by rw [hasKey_bumpFrom]; exact h
  have hins : insertA key value (some i) bag = appendTo key value i (bumpFrom i bag) := by
    unfold insertA
    simp [hbump]
  rw [hins]
  -- the `appendTo` map preserves key matching
  have hkm_aTo : (keyMatch key ∘ fun e =>
      if keyMatch key e = true then
        { e with values := e.values ++ [value], positions := e.positions ++ [i] }
      else e) = keyMatch key := by
    funext e
    simp only [Function.comp_apply]
    by_cases hk : keyMatch key e = true
    · rw [if_pos hk]
      rfl
    · rw [if_neg hk]
  -- where find? lands after the insert
  have hfindI : (appendTo key value i (bumpFrom i bag)).find? (keyMatch key) =
      some ⟨e0.cased, e0.values ++ [value], e0.positions.map (shiftUp i) ++ [i]⟩ := by
    unfold appendTo
    rw [List.find?_map, hkm_aTo, find?_bumpFrom, hfind0]
    simp only [Option.map_some']
    have hk' : keyMatch key { e0 with positions := e0.positions.map (shiftUp i) } = true := by
      cases e0
      simpa using hkm0
    rw [if_pos hk']
  have hhkI : hasKey (appendTo key value i (bumpFrom i bag)) key = true := by
    unfold hasKey
    refine List.any_eq_true.mpr ?_
    refine ⟨_, List.mem_of_find?_eq_some hfindI, List.find?_some hfindI⟩
  unfold removeA
  rw [hhkI, hfindI]
  have hcont : ((⟨e0.cased, e0.values ++ [value], e0.positions.map (shiftUp i) ++ [i]⟩ :
      AttrEntry).positions.contains i) = true := by simp
  simp only [Bool.not_true, Bool.false_eq_true, if_false, hcont, if_true]
  -- popping position i recovers the bumped slot
  have hpop : popPos i (⟨e0.cased, e0.values ++ [value], e0.positions.map (shiftUp i) ++ [i]⟩ :
      AttrEntry) = { e0 with positions := e0.positions.map (shiftUp i) } := by
    unfold popPos
    have hidx : listIdx i (e0.positions.map (shiftUp i) ++ [i]) =
        (e0.positions.map (shiftUp i)).length := by
      refine listIdx_append_self i (e0.positions.map (shiftUp i)) ?_
      intro y hy
      obtain ⟨p, _, hp⟩ := List.mem_map.mp hy
      rw [← hp]
      exact shiftUp_ne i p
    simp only [hidx]
    have h1 : (e0.values ++ [value]).eraseIdx (e0.positions.map (shiftUp i)).length =
        e0.values := by
      rw [List.length_map, ← hlen0]
      exact eraseIdx_append_self e0.values value
    have h2 : (e0.positions.map (shiftUp i) ++ [i]).eraseIdx
        (e0.positions.map (shiftUp i)).length = e0.positions.map (shiftUp i) :=
      eraseIdx_append_self _ i
    rw [h1, h2]
  rw [hpop]
  unfold removeFinish
  -- replacing the slot with the bumped original undoes the append
  have hrepl : replaceEntry key { e0 with positions := e0.positions.map (shiftUp i) }
      (appendTo key value i (bumpFrom i bag)) = bumpFrom i bag := by
    unfold replaceEntry appendTo bumpFrom
    rw [List.map_map, List.map_map]
    apply List.map_congr_left
    intro e he
    simp only [Function.comp]
    by_cases hk : keyMatch key e = true
    · have he0 : e = e0 := huniq e he hk
      subst he0
      have hk1 : keyMatch key { e with positions := e.positions.map (shiftUp i) } = true := by
        cases e
        simpa using hk
      have hk2 : keyMatch key { e with
          values := e.values ++ [value],
          positions := e.positions.map (shiftUp i) ++ [i] } = true := by
        cases e
        simpa using hk
      rw [if_pos hk1, if_pos hk2]
    · have hk1 : keyMatch key { e with positions := e.positions.map (shiftUp i) } = false := by
        cases e
        simpa using hk
      rw [if_neg (by simp [hk1]), if_neg (by simp [hk1])]
  rw [hrepl]
  have hvE : ({ e0 with positions := e0.positions.map (shiftUp i) } : AttrEntry).values.isEmpty
      = false := by
    cases hv : e0.values with
    | nil => exact absurd hv hvne
    | cons a l => rfl
  rw [hvE]
  have hBE : (bumpFrom i bag).isEmpty = false := by
    unfold bumpFrom
    cases bag with
    | nil => cases hmem0
    | cons a l => rfl
  simp only [Bool.false_eq_true, if_false, hBE]
  rw [decrementAll_bumpFrom]
  simp

/-- Claim C7: inserting a key at position `i` (0 ≤ i ≤ length) into any
well-formed attribute index and then removing the occurrence at position
`i` restores the index exactly — in particular the serialized content is
the same as before the insert.  (`bagWf` holds for every reachable
`Attributes._bag`: one slot per normalized key, matching non-empty value
and position lists.) -/
theorem insert_remove_roundtrip :
    ∀ (bag : Bag) (key : String) (value : Option String) (i : Nat),
      bagWf bag → i ≤ lengthA bag →
      removeA key (some i) none (insertA key value (some i) bag) = .ok bag := by
  intro bag key value i hwf _
  by_cases h : hasKey bag key = true
  · exact roundtrip_existing bag key value i hwf h
  · exact roundtrip_fresh bag key value i (by simpa using h)

/-- Claim C7, witness: the round trip at a concrete index, both for an
existing key (`charset` at position 1) and for a fresh key. -/
theorem insert_remove_roundtrip_witness :
    removeA "charset" (some 1) none
        (insertA "charset" (some "x") (some 1)
          (attributesInit ["text/html", "charset=UTF-8"])) =
      .ok (attributesInit ["text/html", "charset=UTF-8"]) ∧
    removeA "lang" (some 0) none
        (insertA "lang" none (some 0) (attributesInit ["text/html"])) =
      .ok (attributesInit ["text/html"]) :=
  ⟨insert_remove_roundtrip (attributesInit ["text/html", "charset=UTF-8"]) "charset"
      (some "x") 1 (by decide) (by decide),
   insert_remove_roundtrip (attributesInit ["text/html"]) "lang" none 0
      (by decide) (by decide)⟩

theorem eqStep_eq (rb : List (Nat × String × Option String))
    (check : List (Nat × String × String)) (pa : Nat × String × Option String) :
    eqStep rb check pa =
      if (∃ pb ∈ rb, normalize_str pa.2.1 = normalize_str pb.2.1 ∧ pa.2.2 = pb.2.2) ∧
          ¬ (check.contains (pa.1, normalize_str pa.2.1, normalize_str pa.2.1) = true) then
        check ++ [(pa.1, normalize_str pa.2.1, normalize_str pa.2.1)]
      else check := by
  induction rb generalizing check with
  | nil => simp [eqStep]
  | cons pb rest ih =>
    unfold eqStep at ih ⊢
    rw [List.foldl_cons]
    by_cases hm : normalize_str pa.2.1 = normalize_str pb.2.1 ∧ pa.2.2 = pb.2.2
    · obtain ⟨hm1, hm2⟩ := hm
      by_cases hc : check.contains (pa.1, normalize_str pa.2.1, normalize_str pa.2.1) = true
      · rw [if_neg (fun hand => hand.2.2 (by rw [← hm1]; exact hc))]
        rw [ih]
        rw [if_neg (fun hand => hand.2 hc)]
        rw [if_neg (fun hand => hand.2 hc)]
      · rw [if_pos ⟨hm1, hm2, by rw [← hm1]; exact hc⟩]
        rw [ih]
        rw [if_neg (fun hand => hand.2 (by rw [← hm1]; simp))]
        rw [if_pos ⟨⟨pb, by simp, hm1, hm2⟩, hc⟩]
        rw [← hm1]
    · rw [if_neg (fun hand => hm ⟨hand.1, hand.2.1⟩)]
      rw [ih]
      by_cases hr : (∃ pb' ∈ rest, normalize_str pa.2.1 = normalize_str pb'.2.1 ∧
          pa.2.2 = pb'.2.2) ∧
          ¬ (check.contains (pa.1, normalize_str pa.2.1, normalize_str pa.2.1) = true)
      · rw [if_pos hr]
        obtain ⟨⟨pb', hpb', hP⟩, hc⟩ := hr
        rw [if_pos ⟨⟨pb', by simp [hpb'], hP⟩, hc⟩]
      · rw [if_neg hr]
        rw [if_neg (fun hand => hr ⟨?_, hand.2⟩)]
        obtain ⟨⟨pb', hpb', hP⟩, _⟩ := hand
        rcases List.mem_cons.mp hpb' with he | he
        · exact absurd (he ▸ hP) hm
        · exact ⟨pb', he, hP⟩

theorem contains_true_iff_mem (l : List (Nat × String × String)) (a : Nat × String × String) :
    l.contains a = true ↔ a ∈ l := by
  simp

theorem eqFold_length (rb : List (Nat × String × Option String)) :
    ∀ (ra : List (Nat × String × Option String)) (check : List (Nat × String × String)),
      (ra.map (·.1)).Nodup →
      (∀ pa ∈ ra, ¬ (check.contains (pa.1, normalize_str pa.2.1, normalize_str pa.2.1) = true)) →
      (ra.foldl (eqStep rb) check).length =
        check.length + ra.countP (fun pa => rb.any (fun pb =>
          decide (normalize_str pa.2.1 = normalize_str pb.2.1 ∧ pa.2.2 = pb.2.2))) := by
  intro ra
  induction ra with
  | nil => intro check _ _; simp
  | cons pa rest ih =>
    intro check hnd hck
    rw [List.foldl_cons, eqStep_eq]
    have hcpa := hck pa (by simp)
    have hfst : pa.1 ∉ rest.map (·.1) := (List.nodup_cons.mp hnd).1
    have hnd' : (rest.map (·.1)).Nodup := (List.nodup_cons.mp hnd).2
    by_cases hany : ∃ pb ∈ rb, normalize_str pa.2.1 = normalize_str pb.2.1 ∧ pa.2.2 = pb.2.2
    · have hside : ∀ q ∈ rest,
          ¬ ((check ++ [(pa.1, normalize_str pa.2.1, normalize_str pa.2.1)]).contains
            (q.1, normalize_str q.2.1, normalize_str q.2.1) = true) := by
        intro q hq
        rw [contains_true_iff_mem]
        intro hmem
        rcases List.mem_append.mp hmem with hin | hin
        · exact hck q (List.mem_cons_of_mem pa hq) ((contains_true_iff_mem _ _).mpr hin)
        · have heq := List.mem_singleton.mp hin
          have hq1 : q.1 = pa.1 := (Prod.ext_iff.mp heq).1
          exact hfst (hq1 ▸ List.mem_map_of_mem (·.1) hq)
      rw [if_pos ⟨hany, hcpa⟩]
      rw [ih (check ++ [(pa.1, normalize_str pa.2.1, normalize_str pa.2.1)]) hnd' hside]
      have hcount : (pa :: rest).countP (fun pa => rb.any (fun pb =>
          decide (normalize_str pa.2.1 = normalize_str pb.2.1 ∧ pa.2.2 = pb.2.2))) =
          rest.countP (fun pa => rb.any (fun pb =>
            decide (normalize_str pa.2.1 = normalize_str pb.2.1 ∧ pa.2.2 = pb.2.2))) + 1 := by
        apply List.countP_cons_of_pos
        refine List.any_eq_true.mpr ?_
        obtain ⟨pb, hpb, hP⟩ := hany
        exact ⟨pb, hpb, by simpa using hP⟩
      rw [hcount]
      simp only [List.length_append, List.length_cons, List.length_nil]
      omega
    · rw [if_neg (fun hand => hany hand.1)]
      rw [ih check hnd' (fun q hq => hck q (List.mem_cons_of_mem pa hq))]
      have hcount : (pa :: rest).countP (fun pa => rb.any (fun pb =>
          decide (normalize_str pa.2.1 = normalize_str pb.2.1 ∧ pa.2.2 = pb.2.2))) =
          rest.countP (fun pa => rb.any (fun pb =>
            decide (normalize_str pa.2.1 = normalize_str pb.2.1 ∧ pa.2.2 = pb.2.2))) := by
        apply List.countP_cons_of_neg
        intro hco
        obtain ⟨pb, hpb, hP⟩ := List.any_eq_true.mp hco
        exact hany ⟨pb, hpb, by simpa using hP⟩
      rw [hcount]

theorem exceptMap_fst (s : String) (g : Nat → Option (String × Option String)) :
    ∀ (l : List Nat) (r : List (Nat × String × Option String)),
      exceptMap (fun i =>
        match g i with
        | some kv => Except.ok (i, kv.1, kv.2)
        | none => Except.error s) l = .ok r →
      r.map (·.1) = l := by
  intro l
  induction l with
  | nil =>
    intro r h
    unfold exceptMap at h
    cases h
    rfl
  | cons i is ih =>
    intro r h
    unfold exceptMap at h
    cases hg : g i with
    | none => rw [hg] at h; cases h
    | some kv =>
      rw [hg] at h
      cases he : exceptMap (fun i =>
          match g i with
          | some kv => Except.ok (i, kv.1, kv.2)
          | none => Except.error s) is with
      | error e => rw [he] at h; cases h
      | ok ys =>
        rw [he] at h
        cases h
        simp only [List.map_cons]
        rw [ih ys he]

theorem listReprE_fst (bag : Bag) (ra : List (Nat × String × Option String))
    (h : listReprE bag = .ok ra) : ra.map (·.1) = List.range (lengthA bag) := by
  unfold listReprE at h
  exact exceptMap_fst "not in defined indexes" (getPos bag) (List.range (lengthA bag)) ra h


/-- Claim C4 (amended): `Attributes.__eq__` is not multiset equality of the
normalized `(key, value)` pairs.  It returns true exactly when the lengths
agree and every pair of the left-hand side occurs (at least once) somewhere
in the right-hand side — one-directional containment, which duplicated
pairs can satisfy asymmetrically. -/
theorem attr_eq_characterization :
    ∀ (a b : Bag) (ra rb : List (Nat × String × Option String)),
      listReprE a = .ok ra → listReprE b = .ok rb →
      (attrEqE a b = .ok true ↔
        (lengthA a = lengthA b ∧
          ∀ pa ∈ ra, ∃ pb ∈ rb,
            normalize_str pa.2.1 = normalize_str pb.2.1 ∧ pa.2.2 = pb.2.2)) := by
  intro a b ra rb hra hrb
  unfold attrEqE
  by_cases hlen : lengthA a = lengthA b
  · rw [if_neg (by simpa using hlen)]
    rw [hra, hrb]
    have hnd : (ra.map (·.1)).Nodup := by
      rw [listReprE_fst a ra hra]
      exact List.nodup_range _
    have hfold := eqFold_length rb ra [] hnd (by intro pa _; simp [List.contains])
    constructor
    · intro h
      have hb : (ra.foldl (eqStep rb) []).length = ra.length :=
        of_decide_eq_true (Except.ok.inj h)
      refine ⟨hlen, ?_⟩
      rw [hfold] at hb
      simp only [List.length_nil, Nat.zero_add] at hb
      have hall := List.countP_eq_length.mp hb
      intro pa hpa
      obtain ⟨pb, hpb, hP⟩ := List.any_eq_true.mp (hall pa hpa)
      exact ⟨pb, hpb, of_decide_eq_true hP⟩
    · rintro ⟨-, hall⟩
      have hcount : ra.countP (fun pa => rb.any (fun pb =>
          decide (normalize_str pa.2.1 = normalize_str pb.2.1 ∧ pa.2.2 = pb.2.2))) =
          ra.length := by
        refine List.countP_eq_length.mpr ?_
        intro pa hpa
        obtain ⟨pb, hpb, hP⟩ := hall pa hpa
        exact List.any_eq_true.mpr ⟨pb, hpb, decide_eq_true hP⟩
      have : (ra.foldl (eqStep rb) []).length = ra.length := by
        rw [hfold, hcount]
        simp
      exact congrArg Except.ok (decide_eq_true this)
  · rw [if_pos (by simpa using hlen)]
    constructor
    · intro h
      cases Except.ok.inj h
    · rintro ⟨h1, -⟩
      exact absurd h1 hlen

/-- Claim C4, witness: the characterization applied to two concrete
single-pair indexes that differ only in key casing. -/
theorem attr_eq_characterization_witness :
    attrEqE (attributesInit ["A=1"]) (attributesInit ["a=1"]) = .ok true :=
  (attr_eq_characterization (attributesInit ["A=1"]) (attributesInit ["a=1"])
      [(0, "A", some "1")] [(0, "a", some "1")] rfl rfl).mpr
    ⟨rfl, by decide⟩

/-- Claim C4, counterexample: `Attributes.__eq__` is not symmetric, so it
cannot be multiset equality: `[a=1, a=1]` compares equal to `[a=1, c=3]`
(both occurrences of `a=1` find the same match) but not conversely — the
multisets of pairs differ. -/
theorem attr_eq_not_multiset_cex :
    attrEqE (attributesInit ["a=1", "a=1"]) (attributesInit ["a=1", "c=3"]) = .ok true ∧
    attrEqE (attributesInit ["a=1", "c=3"]) (attributesInit ["a=1", "a=1"]) = .ok false :=
  ⟨rfl, rfl⟩

theorem exceptMap_ok_of_forall {α β : Type} (f : α → Except String β) :
    ∀ l : List α, (∀ x ∈ l, (f x).isOk = true) →
      ∃ r, exceptMap f l = .ok r ∧ r.length = l.length := by
  intro l
  induction l with
  | nil => intro _; exact ⟨[], rfl, rfl⟩
  | cons x xs ih =>
    intro h
    obtain ⟨y, hy⟩ : ∃ y, f x = .ok y := by
      have := h x (by simp)
      cases hf : f x with
      | error e => rw [hf] at this; cases this
      | ok y => exact ⟨y, rfl⟩
    obtain ⟨r, hr, hl⟩ := ih (fun z hz => h z (List.mem_cons_of_mem x hz))
    refine ⟨y :: r, ?_, by simp [hl]⟩
    unfold exceptMap
    rw [hy, hr]

/-- Claim C10 (amended): `Headers.__setitem__` first removes every header of
the assigned name; for a non-`subject` name whose value splits at `,` into
`n > 1` entries, and provided each entry constructs a valid header (legal
name, JSON-looking entries decoding), it appends `n` separate headers, one
per entry, so the collection holds the cleaned list plus `n` new headers;
otherwise (one entry, or the `subject` name) it appends exactly one header
holding the whole value, provided that header constructs.  Without the
construction proviso the assignment fails and appends nothing. -/
theorem setitem_comma_split_appends :
    (∀ (hs : HeadersM) (key value : String) (entries : List String),
      normalize_str key ≠ "subject" →
      header_content_split value ',' = .ok entries →
      1 < entries.length →
      (∀ e ∈ entries, (mkHeader key e).isOk = true) →
      ∃ new, exceptMap (fun entry => mkHeader key entry) entries = .ok new ∧
        new.length = entries.length ∧
        headersSetItem hs key value =
          .ok ((if headersContains hs key then headersDelAll hs key else hs) ++ new)) ∧
    (∀ (hs : HeadersM) (key value : String) (entries : List String) (h : HeaderM),
      normalize_str key ≠ "subject" →
      header_content_split value ',' = .ok entries →
      entries.length ≤ 1 →
      mkHeader key value = .ok h →
      headersSetItem hs key value =
        .ok ((if headersContains hs key then headersDelAll hs key else hs) ++ [h])) ∧
    (∀ (hs : HeadersM) (key value : String) (h : HeaderM),
      normalize_str key = "subject" →
      mkHeader key value = .ok h →
      headersSetItem hs key value =
        .ok ((if headersContains hs key then headersDelAll hs key else hs) ++ [h])) := by
  refine ⟨?_, ?_, ?_⟩
  · intro hs key value entries hsub hsplit hlen hok
    obtain ⟨new, hnew, hnl⟩ := exceptMap_ok_of_forall (fun entry => mkHeader key entry)
      entries hok
    refine ⟨new, hnew, hnl, ?_⟩
    unfold headersSetItem
    rw [if_pos hsub, hsplit]
    dsimp only
    rw [if_pos hlen, hnew]
  · intro hs key value entries h hsub hsplit hlen hh
    unfold headersSetItem
    rw [if_pos hsub, hsplit]
    dsimp only
    rw [if_neg (by omega), hh]
  · intro hs key value h hsub hh
    unfold headersSetItem
    rw [if_neg (by simp [hsub]), hh]

/-- Claim C10, witness: assigning `"a, b"` to `Accept` on an empty
collection appends two headers (and the single-entry branch at a one-entry
value). -/
theorem setitem_comma_split_appends_witness :
    (∃ new, exceptMap (fun entry => mkHeader "Accept" entry) ["a", "b"] = .ok new ∧
      new.length = (["a", "b"] : List String).length ∧
      headersSetItem [] "Accept" "a, b" =
        .ok ((if headersContains [] "Accept" then headersDelAll [] "Accept" else []) ++ new)) ∧
    headersSetItem [] "Accept" "c" =
      .ok ((if headersContains [] "Accept" then headersDelAll [] "Accept" else []) ++
        [⟨"Accept", "accept", "Accept", "c", ["c"], [⟨"c", [none], [0]⟩]⟩]) :=
  ⟨setitem_comma_split_appends.1 [] "Accept" "a, b" ["a", "b"] (by decide) rfl (by decide)
      (by decide),
   setitem_comma_split_appends.2.1 [] "Accept" "c" ["c"]
      ⟨"Accept", "accept", "Accept", "c", ["c"], [⟨"c", [none], [0]⟩]⟩
      (by decide) rfl (by decide) rfl⟩

/-- Claim C10, counterexample: the claim fails when an entry cannot be
constructed.  Assigning `"a, b"` (two comma entries) to the illegal name
`@` raises instead of appending two headers, leaving the collection with
zero new headers. -/
theorem setitem_failing_entry_cex :
    headersSetItem [] "@" "a, b" =
      .error ("@ is not a valid header name. Cannot proceed with it.") ∧
    header_content_split "a, b" ',' = .ok ["a", "b"] ∧
    normalize_str "@" ≠ "subject" :=
  ⟨rfl, rfl, by decide⟩

theorem nkeyOf_map_bumpFrom (i : Nat) (bag : Bag) :
    (bumpFrom i bag).map nkeyOf = bag.map nkeyOf := by
  unfold bumpFrom
  rw [List.map_map]
  rfl

theorem nkeyOf_map_appendTo (key : String) (value : Option String) (pos : Nat) (bag : Bag) :
    (appendTo key value pos bag).map nkeyOf = bag.map nkeyOf := by
  unfold appendTo
  rw [List.map_map]
  apply List.map_congr_left
  intro e _
  by_cases hk : keyMatch key e = true
  · simp only [Function.comp, if_pos hk]
    rfl
  · simp only [Function.comp, if_neg hk]

theorem bagWf_insertA (key : String) (value : Option String) (index : Option Nat)
    (bag : Bag) (h : bagWf bag) : bagWf (insertA key value index bag) := by
  obtain ⟨hnd, hmem⟩ := h
  -- the renumbered bag satisfies the invariant with the same key list
  have hbump : ∀ i : Nat, bagWf (bumpFrom i bag) := by
    intro i
    refine ⟨by rw [nkeyOf_map_bumpFrom]; exact hnd, ?_⟩
    intro e' he'
    obtain ⟨e, he, hEq⟩ := List.mem_map.mp he'
    subst hEq
    obtain ⟨h1, h2⟩ := hmem e he
    constructor
    · simpa using h1
    · exact h2
  unfold insertA
  cases index with
  | none =>
    by_cases hk : hasKey bag key = true
    · rw [if_pos hk]
      refine ⟨by rw [nkeyOf_map_appendTo]; exact hnd, ?_⟩
      intro e' he'
      obtain ⟨e, he, hEq⟩ := List.mem_map.mp he'
      obtain ⟨h1, h2⟩ := hmem e he
      by_cases hm : keyMatch key e = true
      · rw [if_pos hm] at hEq
        subst hEq
        refine ⟨by simp [h1], by simp⟩
      · rw [if_neg hm] at hEq
        subst hEq
        exact ⟨h1, h2⟩
    · rw [if_neg hk]
      constructor
      · rw [List.map_append]
        refine List.Nodup.append hnd (by simp [List.nodup_cons]) ?_
        intro x hx hy
        have hxk : x = normalize_str key := by
          simpa [nkeyOf] using hy
        subst hxk
        obtain ⟨e, he, hEq⟩ := List.mem_map.mp hx
        have : keyMatch key e = true := by
          unfold keyMatch
          rw [hEq]
          simp
        exact absurd (List.any_eq_true.mpr ⟨e, he, this⟩) (by simpa [hasKey] using hk)
      · intro e' he'
        rcases List.mem_append.mp he' with hin | hin
        · exact hmem e' hin
        · have : e' = ⟨key, [value], [lengthA bag]⟩ := List.mem_singleton.mp hin
          subst this
          exact ⟨rfl, by simp⟩
  | some i =>
    obtain ⟨hnd1, hmem1⟩ := hbump i
    by_cases hk : hasKey (bumpFrom i bag) key = true
    · rw [if_pos hk]
      refine ⟨by rw [nkeyOf_map_appendTo]; exact hnd1, ?_⟩
      intro e' he'
      obtain ⟨e, he, hEq⟩ := List.mem_map.mp he'
      obtain ⟨h1, h2⟩ := hmem1 e he
      by_cases hm : keyMatch key e = true
      · rw [if_pos hm] at hEq
        subst hEq
        refine ⟨by simp [h1], by simp⟩
      · rw [if_neg hm] at hEq
        subst hEq
        exact ⟨h1, h2⟩
    · rw [if_neg hk]
      constructor
      · rw [List.map_append]
        refine List.Nodup.append hnd1 (by simp [List.nodup_cons]) ?_
        intro x hx hy
        have hxk : x = normalize_str key := by
          simpa [nkeyOf] using hy
        subst hxk
        obtain ⟨e, he, hEq⟩ := List.mem_map.mp hx
        have : keyMatch key e = true := by
          unfold keyMatch
          rw [hEq]
          simp
        exact absurd (List.any_eq_true.mpr ⟨e, he, this⟩) (by simpa [hasKey] using hk)
      · intro e' he'
        rcases List.mem_append.mp he' with hin | hin
        · exact hmem1 e' hin
        · have : e' = ⟨key, [value], [i]⟩ := List.mem_singleton.mp hin
          subst this
          exact ⟨rfl, by simp⟩

/-- Every attribute bag built by `Attributes.__init__` is well formed, so
the `bagWf` hypothesis of the insert/remove round trip covers every freshly
constructed index. -/
theorem bagWf_attributesInit (members : List String) : bagWf (attributesInit members) := by
  unfold attributesInit
  suffices h : ∀ acc : Bag, bagWf acc → bagWf (members.foldl
      (fun bag m => if m = "" then bag else
        let kv := classifyMember m
        insertA kv.1 kv.2 none bag) acc) by
    exact h [] ⟨List.nodup_nil, by intro e he; cases he⟩
  induction members with
  | nil => intro acc hacc; exact hacc
  | cons m ms ih =>
    intro acc hacc
    rw [List.foldl_cons]
    by_cases hm : m = ""
    · rw [if_pos hm] at *
      exact ih acc hacc
    · rw [if_neg hm]
      exact ih _ (bagWf_insertA (classifyMember m).1 (classifyMember m).2 none acc hacc)
